import Mathlib

/-!
# Verification of the D3OS freestanding libc core

Shallow embedding of the D3OS C library surface (`src/os/library/libc`) and the
two small applications (`helloc`, `peanut-gb`), with theorems settling the
specification's claims about them.

The repository ships only the headers of the libc (`stdlib.h`, `string.h`,
`time.h`, `runtime.h`); the function bodies are not part of the source tree.
Definitions for those functions are therefore modelled from the specification
(§4.1–§4.5 of spec.md), which describes their required observable behaviour;
each such definition carries a doc comment starting `Modelled from the spec:`.
The two C files that are present (`hello.c`, `peanut-gb.c`) are embedded
directly from their source.
-/

namespace D3OS

/-! ## Memory primitives (string.h)

Byte memory is modelled as a total map from addresses to byte values.
-/

/-- A byte store: addresses to byte values. -/
abbrev Mem := Nat → Nat

/-- Write one byte at address `a`. -/
def wr (m : Mem) (a v : Nat) : Mem := fun x => if x = a then v else m x

@[simp] theorem wr_self (m : Mem) (a v : Nat) : wr m a v a = v := by
  simp [wr]

theorem wr_other (m : Mem) (a v x : Nat) (h : x ≠ a) : wr m a v x = m x := by
  simp [wr, h]

/-- Modelled from the spec: `memmove`'s body is not under `src` (`string.h` only
declares it).  §4.1 requires a forward byte-order copy (offsets 0,1,…,n-1 in
increasing order) when the destination precedes the source.  `copyFwd m d s n`
copies `n` bytes from address `s` to address `d`, lowest offset first. -/
def copyFwd (m : Mem) (d s : Nat) : Nat → Mem
  | 0 => m
  | n + 1 =>
    let m' := copyFwd m d s n
    wr m' (d + n) (m' (s + n))

/-- Modelled from the spec: the backward byte-order copy (offsets n-1,…,1,0 in
decreasing order) required by §4.1 when the destination follows the source. -/
def copyBwd (m : Mem) (d s : Nat) : Nat → Mem
  | 0 => m
  | n + 1 => copyBwd (wr m (d + n) (m (s + n))) d s n

/-- Modelled from the spec: `memmove(dest, src, n)` chooses forward or backward
byte order based on the relative addresses, so that overlapping ranges are
copied correctly (§4.1 `move`). -/
def memmove (m : Mem) (dest src n : Nat) : Mem :=
  if dest ≤ src then copyFwd m dest src n else copyBwd m dest src n

/-- The temporary buffer of §4.1: the `n` source bytes, read before any write. -/
def stageTemp (m : Mem) (s n : Nat) : List Nat :=
  List.ofFn fun i : Fin n => m (s + i)

/-- Write a list of bytes to consecutive addresses starting at `d`. -/
def writeBytes (m : Mem) (d : Nat) : List Nat → Mem
  | [] => m
  | b :: bs => writeBytes (wr m d b) (d + 1) bs

/-- The reference semantics of §4.1: copy as if the source were staged through
an independent temporary buffer (all reads happen before any write). -/
def memmoveViaTemp (m : Mem) (dest src n : Nat) : Mem :=
  writeBytes m dest (stageTemp m src n)

theorem copyFwd_outside (m : Mem) (d s : Nat) :
    ∀ n x, (x < d ∨ d + n ≤ x) → copyFwd m d s n x = m x := by
  intro n
  induction n with
  | zero => intro x _; rfl
  | succ n ih =>
    intro x hx
    show wr (copyFwd m d s n) (d + n) (copyFwd m d s n (s + n)) x = m x
    rw [wr_other _ _ _ _ (by omega)]
    exact ih x (by omega)

theorem copyFwd_inside (m : Mem) (d s : Nat) (hds : d ≤ s) :
    ∀ n i, i < n → copyFwd m d s n (d + i) = m (s + i) := by
  intro n
  induction n with
  | zero => intro i hi; omega
  | succ n ih =>
    intro i hi
    show wr (copyFwd m d s n) (d + n) (copyFwd m d s n (s + n)) (d + i) = m (s + i)
    by_cases hin : i = n
    · subst hin
      rw [wr_self]
      exact copyFwd_outside m d s i (s + i) (by omega)
    · rw [wr_other _ _ _ _ (by omega)]
      exact ih i (by omega)

theorem copyBwd_outside (d s : Nat) :
    ∀ n, ∀ m' : Mem, ∀ x, (x < d ∨ d + n ≤ x) → copyBwd m' d s n x = m' x := by
  intro n
  induction n with
  | zero => intro m' x _; rfl
  | succ n ih =>
    intro m' x hx
    show copyBwd (wr m' (d + n) (m' (s + n))) d s n x = m' x
    rw [ih _ x (by omega)]
    exact wr_other _ _ _ _ (by omega)

theorem copyBwd_inside (d s : Nat) (hsd : s ≤ d) :
    ∀ n, ∀ m : Mem, ∀ i, i < n → copyBwd m d s n (d + i) = m (s + i) := by
  intro n
  induction n with
  | zero => intro m i hi; omega
  | succ n ih =>
    intro m i hi
    show copyBwd (wr m (d + n) (m (s + n))) d s n (d + i) = m (s + i)
    by_cases hin : i = n
    · subst hin
      rw [copyBwd_outside d s i _ (d + i) (by omega), wr_self]
    · rw [ih _ i (by omega)]
      exact wr_other _ _ _ _ (by omega)

theorem writeBytes_eval :
    ∀ (l : List Nat) (m : Mem) (d x : Nat),
      writeBytes m d l x =
        if d ≤ x ∧ x < d + l.length then l.getD (x - d) 0 else m x := by
  intro l
  induction l with
  | nil =>
    intro m d x
    show m x = if d ≤ x ∧ x < d + ([] : List Nat).length then _ else m x
    rw [if_neg (by simp only [List.length_nil]; omega)]
  | cons b bs ih =>
    intro m d x
    show writeBytes (wr m d b) (d + 1) bs x = _
    rw [ih]
    by_cases h1 : d + 1 ≤ x ∧ x < d + 1 + bs.length
    · rw [if_pos h1, if_pos (by simp only [List.length_cons]; omega)]
      have hx : x - d = (x - (d + 1)) + 1 := by omega
      rw [hx, List.getD_cons_succ]
    · rw [if_neg h1]
      by_cases hx : x = d
      · subst hx
        rw [wr_self, if_pos (by simp only [List.length_cons]; omega),
          Nat.sub_self, List.getD_cons_zero]
      · rw [wr_other _ _ _ _ hx, if_neg (by simp only [List.length_cons]; omega)]

theorem stageTemp_length (m : Mem) (s n : Nat) : (stageTemp m s n).length = n := by
  simp [stageTemp]

theorem stageTemp_getD (m : Mem) (s n i : Nat) (hi : i < n) :
    (stageTemp m s n).getD i 0 = m (s + i) := by
  rw [List.getD_eq_getElem _ _ (by simpa [stageTemp_length] using hi)]
  simp [stageTemp]

theorem memmoveViaTemp_eval (m : Mem) (dest src n x : Nat) :
    memmoveViaTemp m dest src n x =
      if dest ≤ x ∧ x < dest + n then m (src + (x - dest)) else m x := by
  rw [memmoveViaTemp, writeBytes_eval, stageTemp_length]
  by_cases h : dest ≤ x ∧ x < dest + n
  · rw [if_pos h, if_pos h, stageTemp_getD _ _ _ _ (by omega)]
  · rw [if_neg h, if_neg h]

/-- C2: for every pair of source and destination ranges of length `n`,
including every overlapping pair, `memmove` leaves every address holding
exactly what copying through an independent temporary buffer would leave
there — in particular `dest` ends up holding the `n` bytes `src` held before
the call, whether `dest` starts before or after `src`. -/
theorem memmove_eq_memmoveViaTemp (m : Mem) (dest src n x : Nat) :
    memmove m dest src n x = memmoveViaTemp m dest src n x := by
  rw [memmoveViaTemp_eval, memmove]
  by_cases hds : dest ≤ src
  · rw [if_pos hds]
    by_cases h : dest ≤ x ∧ x < dest + n
    · rw [if_pos h]
      have hfwd := copyFwd_inside m dest src hds n (x - dest) (by omega)
      rwa [show dest + (x - dest) = x by omega] at hfwd
    · rw [if_neg h]
      exact copyFwd_outside m dest src n x (by omega)
  · rw [if_neg hds]
    by_cases h : dest ≤ x ∧ x < dest + n
    · rw [if_pos h]
      have hbwd := copyBwd_inside dest src (by omega) n m (x - dest) (by omega)
      rwa [show dest + (x - dest) = x by omega] at hbwd
    · rw [if_neg h]
      exact copyBwd_outside dest src n m x (by omega)

/-! ## String primitives (string.h)

A C string is modelled as a list of byte values; its logical length is
delimited by the first zero byte.  A destination buffer is likewise a list of
bytes (its length is the buffer's capacity).
-/

/-- Modelled from the spec: `strlen`'s body is not under `src` (`string.h` only
declares it).  §4.2 `length(s)`: count of bytes before the first zero byte. -/
def strlen : List Nat → Nat
  | [] => 0
  | c :: rest => if c = 0 then 0 else strlen rest + 1

/-- Modelled from the spec: `strcpy`'s body is not under `src`.  §4.2
`copy(dest, src)`: copies bytes from `src` up to and including the terminator
into `dest`; bytes of `dest` past the terminator keep their old content.
The caller guarantees `dest` capacity ≥ `strlen src + 1`. -/
def strcpy : List Nat → List Nat → List Nat
  | dest, [] => dest
  | [], _ :: _ => []
  | _ :: dest, c :: src => if c = 0 then 0 :: dest else c :: strcpy dest src

/-- Modelled from the spec: `strcmp`'s body is not under `src`.  §4.2
`compare(a, b)`: lexicographic ordering by byte value up to and including the
first terminator encountered in either string. -/
def strcmp : List Nat → List Nat → Int
  | [], [] => 0
  | [], b :: _ => 0 - (b : Int)
  | a :: _, [] => (a : Int)
  | a :: as, b :: bs =>
    if a = b then (if a = 0 then 0 else strcmp as bs) else (a : Int) - (b : Int)

theorem strlen_lt_length (s : List Nat) (hterm : (0 : Nat) ∈ s) :
    strlen s < s.length := by
  induction s with
  | nil => cases hterm
  | cons c rest ih =>
    by_cases hc : c = 0
    · simp [strlen, hc]
    · have hmem : (0 : Nat) ∈ rest := by
        cases hterm with
        | head => exact absurd rfl hc
        | tail _ h => exact h
      simp only [strlen, if_neg hc, List.length_cons]
      exact Nat.succ_lt_succ (ih hmem)

theorem strlen_first_zero (s : List Nat) (hterm : (0 : Nat) ∈ s) :
    s.getD (strlen s) 1 = 0 := by
  induction s with
  | nil => cases hterm
  | cons c rest ih =>
    by_cases hc : c = 0
    · simp [strlen, hc]
    · have hmem : (0 : Nat) ∈ rest := by
        cases hterm with
        | head => exact absurd rfl hc
        | tail _ h => exact h
      simp only [strlen, if_neg hc, List.getD_cons_succ]
      exact ih hmem

theorem strlen_before_zero (s : List Nat) :
    ∀ i, i < strlen s → s.getD i 0 ≠ 0 := by
  induction s with
  | nil => intro i hi; simp [strlen] at hi
  | cons c rest ih =>
    intro i hi
    by_cases hc : c = 0
    · simp [strlen, hc] at hi
    · cases i with
      | zero => simpa using hc
      | succ i =>
        simp only [strlen, if_neg hc] at hi
        simpa using ih i (by omega)

theorem strcpy_length (dest src : List Nat)
    (hcap : strlen src + 1 ≤ dest.length) :
    (strcpy dest src).length = dest.length := by
  induction src generalizing dest with
  | nil => cases dest <;> rfl
  | cons c src ih =>
    cases dest with
    | nil => simp at hcap
    | cons d dest =>
      by_cases hc : c = 0
      · simp [strcpy, hc]
      · simp only [strcpy, if_neg hc, List.length_cons]
        rw [ih dest]
        simp only [strlen, if_neg hc, List.length_cons] at hcap
        omega

theorem strcmp_strcpy (dest src : List Nat) (hterm : (0 : Nat) ∈ src)
    (hcap : strlen src + 1 ≤ dest.length) :
    strcmp (strcpy dest src) src = 0 := by
  induction src generalizing dest with
  | nil => cases hterm
  | cons c src ih =>
    cases dest with
    | nil => simp at hcap
    | cons d dest =>
      by_cases hc : c = 0
      · simp [strcpy, strcmp, hc]
      · have hmem : (0 : Nat) ∈ src := by
          cases hterm with
          | head => exact absurd rfl hc
          | tail _ h => exact h
        simp only [strlen, if_neg hc, List.length_cons] at hcap
        simp only [strcpy, if_neg hc, strcmp, if_pos rfl, if_neg hc]
        exact ih dest hmem (by omega)

/-- C8: for every null-terminated string `s`, `strlen s` is the index of the
first zero byte of `s`; and after `strcpy dest s` into a buffer of capacity at
least `strlen s + 1`, the copy compares equal to `s` under `strcmp` and the
returned buffer is `dest` itself (same buffer, same capacity). -/
theorem strlen_strcpy_strcmp_roundtrip (s dest : List Nat)
    (hterm : (0 : Nat) ∈ s) (hcap : strlen s + 1 ≤ dest.length) :
    strlen s < s.length ∧
    s.getD (strlen s) 1 = 0 ∧
    (∀ i, i < strlen s → s.getD i 0 ≠ 0) ∧
    strcmp (strcpy dest s) s = 0 ∧
    (strcpy dest s).length = dest.length :=
  ⟨strlen_lt_length s hterm, strlen_first_zero s hterm, strlen_before_zero s,
    strcmp_strcpy dest s hterm hcap, strcpy_length dest s hcap⟩

/-- C8 witness: the string "hi" (bytes 104, 105, 0) copied into a 4-byte
buffer. -/
theorem strlen_strcpy_strcmp_roundtrip_witness :
    strlen [104, 105, 0] < 3 ∧
    ([104, 105, 0] : List Nat).getD (strlen [104, 105, 0]) 1 = 0 ∧
    (∀ i, i < strlen [104, 105, 0] → ([104, 105, 0] : List Nat).getD i 0 ≠ 0) ∧
    strcmp (strcpy [7, 7, 7, 7] [104, 105, 0]) [104, 105, 0] = 0 ∧
    (strcpy [7, 7, 7, 7] [104, 105, 0]).length = 4 :=
  strlen_strcpy_strcmp_roundtrip [104, 105, 0] [7, 7, 7, 7]
    (by decide) (by decide)

/-! ## Generic sort engine (stdlib.h `qsort`)

The element array is modelled as a list of elements; the C comparator is a
function returning an ordering sign (`Int`).  §9 of the spec leaves the
algorithm open, so the observable behaviour is modelled by an insertion sort
driven by the relation `cmp a b ≤ 0`.
-/

/-- Modelled from the spec: `qsort`'s body is not under `src` (`stdlib.h` only
declares it).  §4.4 requires an in-place, comparator-driven sort into ascending
order under `compare`, tolerating `n ≤ 1` as a no-op; no specific algorithm is
evidenced (§9), so the behaviour is modelled by insertion sort. -/
def qsort {α : Type} (cmp : α → α → Int) (l : List α) : List α :=
  List.insertionSort (fun a b => cmp a b ≤ 0) l

/-- C3: for every element list and every comparator defining a total order
(total and transitive as a `≤ 0` relation), `qsort` produces a permutation of
the input that is sorted ascending under the comparator, and an input with at
most one element is left unchanged. -/
theorem qsort_sorts {α : Type} (cmp : α → α → Int) (l : List α)
    (htot : ∀ a b, cmp a b ≤ 0 ∨ cmp b a ≤ 0)
    (htrans : ∀ a b c, cmp a b ≤ 0 → cmp b c ≤ 0 → cmp a c ≤ 0) :
    (qsort cmp l).Perm l ∧
    (qsort cmp l).Sorted (fun a b => cmp a b ≤ 0) ∧
    qsort cmp ([] : List α) = [] ∧ (∀ a : α, qsort cmp [a] = [a]) := by
  haveI : IsTotal α fun a b => cmp a b ≤ 0 := ⟨htot⟩
  haveI : IsTrans α fun a b => cmp a b ≤ 0 := ⟨htrans⟩
  refine ⟨List.perm_insertionSort _ l, List.sorted_insertionSort _ l, rfl, ?_⟩
  intro a
  rfl

/-- C3 witness: the spec's sort scenario, `[5,3,1,4,2]` sorted ascending by a
numeric comparator yields `[1,2,3,4,5]`; and singleton/empty inputs are
unchanged. -/
theorem qsort_sorts_witness :
    (qsort (fun a b : Int => a - b) [5, 3, 1, 4, 2]).Perm [5, 3, 1, 4, 2] ∧
    (qsort (fun a b : Int => a - b) [5, 3, 1, 4, 2]).Sorted
      (fun a b : Int => a - b ≤ 0) ∧
    qsort (fun a b : Int => a - b) ([] : List Int) = [] ∧
    (∀ a : Int, qsort (fun a b : Int => a - b) [a] = [a]) :=
  qsort_sorts (fun a b : Int => a - b) [5, 3, 1, 4, 2]
    (fun a b => by dsimp only; omega)
    (fun a b c h1 h2 => by dsimp only at h1 h2 ⊢; omega)

/-- The sorted output of the spec's sort scenario, checked concretely. -/
theorem qsort_example : qsort (fun a b : Int => a - b) [5, 3, 1, 4, 2] = [1, 2, 3, 4, 5] := by
  decide

/-- `List.orderedInsert`, instrumented to also return every pair of arguments
passed to the comparator. -/
def orderedInsertCalls {α : Type} (cmp : α → α → Int) (a : α) :
    List α → List α × List (α × α)
  | [] => ([a], [])
  | b :: l =>
    if cmp a b ≤ 0 then (a :: b :: l, [(a, b)])
    else
      let p := orderedInsertCalls cmp a l
      (b :: p.1, (a, b) :: p.2)

/-- `qsort` (insertion sort), instrumented to also return every pair of
arguments passed to the comparator. -/
def insertionSortCalls {α : Type} (cmp : α → α → Int) :
    List α → List α × List (α × α)
  | [] => ([], [])
  | b :: l =>
    let p := insertionSortCalls cmp l
    let q := orderedInsertCalls cmp b p.1
    (q.1, p.2 ++ q.2)

theorem orderedInsertCalls_fst {α : Type} (cmp : α → α → Int) (a : α) (l : List α) :
    (orderedInsertCalls cmp a l).1 =
      List.orderedInsert (fun x y => cmp x y ≤ 0) a l := by
  induction l with
  | nil => rfl
  | cons b l ih =>
    by_cases h : cmp a b ≤ 0
    · simp [orderedInsertCalls, List.orderedInsert, h]
    · simp [orderedInsertCalls, List.orderedInsert, h, ih]

theorem insertionSortCalls_fst {α : Type} (cmp : α → α → Int) (l : List α) :
    (insertionSortCalls cmp l).1 = qsort cmp l := by
  induction l with
  | nil => rfl
  | cons b l ih =>
    show (orderedInsertCalls cmp b (insertionSortCalls cmp l).1).1 = _
    rw [ih, orderedInsertCalls_fst]
    rfl

theorem orderedInsertCalls_snd {α : Type} (cmp : α → α → Int) (a : α) (l : List α) :
    ∀ pr ∈ (orderedInsertCalls cmp a l).2, pr.1 = a ∧ pr.2 ∈ l := by
  induction l with
  | nil => intro pr h; cases h
  | cons b l ih =>
    intro pr hpr
    by_cases h : cmp a b ≤ 0
    · simp only [orderedInsertCalls, if_pos h, List.mem_singleton] at hpr
      subst hpr
      exact ⟨rfl, List.mem_cons_self b l⟩
    · simp only [orderedInsertCalls, if_neg h, List.mem_cons] at hpr
      cases hpr with
      | inl heq => subst heq; exact ⟨rfl, List.mem_cons_self b l⟩
      | inr hmem =>
        obtain ⟨h1, h2⟩ := ih pr hmem
        exact ⟨h1, List.mem_cons_of_mem b h2⟩

theorem insertionSortCalls_snd {α : Type} (cmp : α → α → Int) (l : List α) :
    ∀ pr ∈ (insertionSortCalls cmp l).2, pr.1 ∈ l ∧ pr.2 ∈ l := by
  induction l with
  | nil => intro pr h; cases h
  | cons b l ih =>
    intro pr hpr
    simp only [insertionSortCalls, List.mem_append] at hpr
    cases hpr with
    | inl hmem =>
      obtain ⟨h1, h2⟩ := ih pr hmem
      exact ⟨List.mem_cons_of_mem b h1, List.mem_cons_of_mem b h2⟩
    | inr hmem =>
      obtain ⟨h1, h2⟩ := orderedInsertCalls_snd cmp b _ pr hmem
      rw [insertionSortCalls_fst] at h2
      have h2' : pr.2 ∈ l :=
        ((List.perm_insertionSort (fun x y => cmp x y ≤ 0) l).mem_iff).mp h2
      exact ⟨h1 ▸ List.mem_cons_self b l, List.mem_cons_of_mem b h2'⟩

/-! ## Generic binary search (stdlib.h `bsearch`)

`bsearch` is part of the library surface (it is listed in the header comments
of `time.h`/`runtime.h`) but neither its declaration nor its body is under
`src`; it is modelled from §4.4 of the spec: a binary search over a half-open
index interval, comparing the key against the middle element.  The not-found
indicator is `none`.  The `fuel` argument bounds the iteration count;
`hi - lo` iterations always suffice.
-/

/-- Modelled from the spec: `bsearch`'s body is not under `src`.  §4.4: narrow
the half-open interval `[lo, hi)` around the middle element according to the
comparator's ordering tag; return the index of a matching element or `none`. -/
def bsearchGo {α : Type} [Inhabited α] (cmp : α → α → Int) (key : α)
    (l : List α) : Nat → Nat → Nat → Option Nat
  | _, _, 0 => none
  | lo, hi, fuel + 1 =>
    if lo < hi then
      let mid := (lo + hi) / 2
      let c := cmp key (l.getD mid default)
      if c = 0 then some mid
      else if c < 0 then bsearchGo cmp key l lo mid fuel
      else bsearchGo cmp key l (mid + 1) hi fuel
    else none

/-- Modelled from the spec: `bsearch(key, base, n, stride, compare)` searches
the whole array, i.e. the interval `[0, n)`. -/
def bsearch {α : Type} [Inhabited α] (cmp : α → α → Int) (key : α)
    (l : List α) : Option Nat :=
  bsearchGo cmp key l 0 l.length l.length

theorem bsearchGo_sound {α : Type} [Inhabited α] (cmp : α → α → Int) (key : α)
    (l : List α) :
    ∀ fuel lo hi j, hi ≤ l.length → bsearchGo cmp key l lo hi fuel = some j →
      j < l.length ∧ cmp key (l.getD j default) = 0 := by
  intro fuel
  induction fuel with
  | zero => intro lo hi j _ h; cases h
  | succ fuel ih =>
    intro lo hi j hhi h
    simp only [bsearchGo] at h
    by_cases hlohi : lo < hi
    · rw [if_pos hlohi] at h
      rcases lt_trichotomy (cmp key (l.getD ((lo + hi) / 2) default)) 0 with hlt | heq | hgt
      · rw [if_neg (by omega), if_pos hlt] at h
        exact ih lo ((lo + hi) / 2) j (by omega) h
      · rw [if_pos heq] at h
        cases h
        exact ⟨by omega, heq⟩
      · rw [if_neg (by omega), if_neg (by omega)] at h
        exact ih ((lo + hi) / 2 + 1) hi j hhi h
    · rw [if_neg hlohi] at h
      cases h

theorem bsearchGo_complete {α : Type} [Inhabited α] (cmp : α → α → Int)
    (key : α) (l : List α)
    (h1 : ∀ a b c, cmp a b < 0 → cmp b c ≤ 0 → cmp a c < 0)
    (h2 : ∀ a b c, 0 < cmp a b → cmp c b ≤ 0 → 0 < cmp a c)
    (hsort : ∀ i j, i ≤ j → j < l.length →
      cmp (l.getD i default) (l.getD j default) ≤ 0) :
    ∀ fuel lo hi, hi ≤ l.length → hi - lo ≤ fuel →
      (∃ i, lo ≤ i ∧ i < hi ∧ cmp key (l.getD i default) = 0) →
      ∃ j, bsearchGo cmp key l lo hi fuel = some j := by
  intro fuel
  induction fuel with
  | zero =>
    intro lo hi _ hfuel ⟨i, hloi, hihi, _⟩
    omega
  | succ fuel ih =>
    intro lo hi hhi hfuel ⟨i, hloi, hihi, hzero⟩
    have hlohi : lo < hi := by omega
    simp only [bsearchGo, if_pos hlohi]
    rcases lt_trichotomy (cmp key (l.getD ((lo + hi) / 2) default)) 0 with hlt | heq | hgt
    · rw [if_neg (by omega), if_pos hlt]
      refine ih lo ((lo + hi) / 2) (by omega) (by omega) ⟨i, hloi, ?_, hzero⟩
      by_contra hge
      have hmi : (lo + hi) / 2 ≤ i := by omega
      have := h1 key (l.getD ((lo + hi) / 2) default) (l.getD i default) hlt
        (hsort _ _ hmi (by omega))
      omega
    · rw [if_pos heq]
      exact ⟨(lo + hi) / 2, rfl⟩
    · rw [if_neg (by omega), if_neg (by omega)]
      refine ih ((lo + hi) / 2 + 1) hi hhi (by omega) ⟨i, ?_, hihi, hzero⟩
      by_contra hle
      have him : i ≤ (lo + hi) / 2 := by omega
      have := h2 key (l.getD ((lo + hi) / 2) default) (l.getD i default) hgt
        (hsort _ _ him (by omega))
      omega

/-- C4: for every element list sorted ascending under a coherent comparator,
`bsearch` returns the index of an element comparing equal to the key whenever
one exists, and the not-found indicator `none` otherwise; on an empty list it
always returns `none`. -/
theorem bsearch_correct {α : Type} [Inhabited α] (cmp : α → α → Int) (key : α)
    (l : List α)
    (h1 : ∀ a b c, cmp a b < 0 → cmp b c ≤ 0 → cmp a c < 0)
    (h2 : ∀ a b c, 0 < cmp a b → cmp c b ≤ 0 → 0 < cmp a c)
    (hsort : ∀ i j, i ≤ j → j < l.length →
      cmp (l.getD i default) (l.getD j default) ≤ 0) :
    (∀ j, bsearch cmp key l = some j →
      j < l.length ∧ cmp key (l.getD j default) = 0) ∧
    ((∃ i, i < l.length ∧ cmp key (l.getD i default) = 0) →
      ∃ j, bsearch cmp key l = some j ∧ j < l.length ∧
        cmp key (l.getD j default) = 0) ∧
    ((∀ i, i < l.length → cmp key (l.getD i default) ≠ 0) →
      bsearch cmp key l = none) ∧
    bsearch cmp key ([] : List α) = none := by
  refine ⟨?_, ?_, ?_, rfl⟩
  · intro j hj
    exact bsearchGo_sound cmp key l l.length 0 l.length j le_rfl hj
  · intro ⟨i, hi, hz⟩
    obtain ⟨j, hj⟩ := bsearchGo_complete cmp key l h1 h2 hsort l.length 0
      l.length le_rfl (by omega) ⟨i, by omega, hi, hz⟩
    exact ⟨j, hj, bsearchGo_sound cmp key l l.length 0 l.length j le_rfl hj⟩
  · intro hnone
    cases hb : bsearch cmp key l with
    | none => rfl
    | some j =>
      obtain ⟨hlt, hz⟩ := bsearchGo_sound cmp key l l.length 0 l.length j le_rfl hb
      exact absurd hz (hnone j hlt)

/-- C4 witness: the spec's scenario on the sorted list `[1,2,3,4,5]` with a
numeric comparator; the only tie is the matching element itself. -/
theorem bsearch_correct_witness :
    (∀ j, bsearch (fun a b : Int => a - b) 3 [1, 2, 3, 4, 5] = some j →
      j < 5 ∧ (3 : Int) - ([1, 2, 3, 4, 5] : List Int).getD j default = 0) ∧
    ((∃ i, i < 5 ∧ (3 : Int) - ([1, 2, 3, 4, 5] : List Int).getD i default = 0) →
      ∃ j, bsearch (fun a b : Int => a - b) 3 [1, 2, 3, 4, 5] = some j ∧
        j < 5 ∧ (3 : Int) - ([1, 2, 3, 4, 5] : List Int).getD j default = 0) ∧
    ((∀ i, i < 5 → (3 : Int) - ([1, 2, 3, 4, 5] : List Int).getD i default ≠ 0) →
      bsearch (fun a b : Int => a - b) 3 [1, 2, 3, 4, 5] = none) ∧
    bsearch (fun a b : Int => a - b) 3 ([] : List Int) = none := by
  have h := bsearch_correct (fun a b : Int => a - b) 3 [1, 2, 3, 4, 5]
    (fun a b c ha hb => by dsimp only at ha hb ⊢; omega)
    (fun a b c ha hb => by dsimp only at ha hb ⊢; omega)
    (by
      intro i j hij hj
      simp only [List.length_cons, List.length_nil] at hj
      interval_cases j <;> interval_cases i <;> decide)
  exact h

/-- The spec's concrete search scenarios: each present value is found at its
index, and the absent value `6` (above the range) reports not-found. -/
theorem bsearch_example :
    bsearch (fun a b : Int => a - b) 3 [1, 2, 3, 4, 5] = some 2 ∧
    bsearch (fun a b : Int => a - b) 1 [1, 2, 3, 4, 5] = some 0 ∧
    bsearch (fun a b : Int => a - b) 5 [1, 2, 3, 4, 5] = some 4 ∧
    bsearch (fun a b : Int => a - b) 6 [1, 2, 3, 4, 5] = none := by
  decide

/-- `bsearchGo`, instrumented to return the list of element indices at which
the comparator is invoked. -/
def bsearchCallsGo {α : Type} [Inhabited α] (cmp : α → α → Int) (key : α)
    (l : List α) : Nat → Nat → Nat → List Nat
  | _, _, 0 => []
  | lo, hi, fuel + 1 =>
    if lo < hi then
      let mid := (lo + hi) / 2
      let c := cmp key (l.getD mid default)
      if c = 0 then [mid]
      else if c < 0 then mid :: bsearchCallsGo cmp key l lo mid fuel
      else mid :: bsearchCallsGo cmp key l (mid + 1) hi fuel
    else []

/-- The element indices at which `bsearch` invokes the comparator. -/
def bsearchCalls {α : Type} [Inhabited α] (cmp : α → α → Int) (key : α)
    (l : List α) : List Nat :=
  bsearchCallsGo cmp key l 0 l.length l.length

theorem bsearchCallsGo_lt {α : Type} [Inhabited α] (cmp : α → α → Int)
    (key : α) (l : List α) :
    ∀ fuel lo hi, hi ≤ l.length →
      ∀ i ∈ bsearchCallsGo cmp key l lo hi fuel, i < l.length := by
  intro fuel
  induction fuel with
  | zero => intro lo hi _ i hi'; cases hi'
  | succ fuel ih =>
    intro lo hi hhi i hmem
    simp only [bsearchCallsGo] at hmem
    by_cases hlohi : lo < hi
    · rw [if_pos hlohi] at hmem
      rcases lt_trichotomy (cmp key (l.getD ((lo + hi) / 2) default)) 0 with hlt | heq | hgt
      · rw [if_neg (by omega), if_pos hlt, List.mem_cons] at hmem
        cases hmem with
        | inl h => subst h; omega
        | inr h => exact ih lo ((lo + hi) / 2) (by omega) i h
      · rw [if_pos heq, List.mem_singleton] at hmem
        subst hmem; omega
      · rw [if_neg (by omega), if_neg (by omega), List.mem_cons] at hmem
        cases hmem with
        | inl h => subst h; omega
        | inr h => exact ih ((lo + hi) / 2 + 1) hi hhi i h
    · rw [if_neg hlohi] at hmem
      cases hmem

/-- C6: the comparator is only ever invoked on elements of the array: every
argument pair `qsort` passes to `compare` consists of elements of the input
list, and every element index at which `bsearch` invokes `compare` lies in
`[0, n)` — never a null or out-of-range element address. -/
theorem comparator_calls_in_range {α : Type} [Inhabited α]
    (cmp : α → α → Int) (key : α) (l : List α) :
    (∀ pr ∈ (insertionSortCalls cmp l).2, pr.1 ∈ l ∧ pr.2 ∈ l) ∧
    (∀ i ∈ bsearchCalls cmp key l, i < l.length) :=
  ⟨insertionSortCalls_snd cmp l,
    bsearchCallsGo_lt cmp key l l.length 0 l.length le_rfl⟩

/-! ## Numeric parser (stdlib.h `strtol`)

The input is a list of characters.  The parser pipeline of §4.3 — whitespace
skip, optional sign, base detection, digit accumulation with overflow
clamping — is modelled stage by stage; each stage reports how many characters
it consumed, so the final consumed count is the spec's "end pointer" as an
offset from the start of the input.  The result type `long` is 64-bit.
-/

/-- Whitespace bytes skipped by §4.3 step 1. -/
def isSpaceChar (c : Char) : Bool :=
  c = ' ' || c = '\t' || c = '\n' || c = '\r' || c = '\x0b' || c = '\x0c'

/-- Skip leading whitespace; return the count skipped and the remainder. -/
def skipWs : List Char → Nat × List Char
  | [] => (0, [])
  | c :: rest =>
    if isSpaceChar c then
      let p := skipWs rest
      (p.1 + 1, p.2)
    else (0, c :: rest)

/-- §4.3 step 2: an optional single `+` or `-`.  Returns the negative flag,
the count consumed (0 or 1), and the remainder. -/
def parseSign : List Char → Bool × Nat × List Char
  | '-' :: rest => (true, 1, rest)
  | '+' :: rest => (false, 1, rest)
  | s => (false, 0, s)

/-- Modelled from the spec: §4.3 step 3, base detection.  Returns the active
base, the count of characters consumed by detection, and the remainder. -/
def baseDetect (base : Nat) (s : List Char) : Nat × Nat × List Char :=
  match s with
  | '0' :: c :: rest =>
    if (base = 0 ∨ base = 16) ∧ (c = 'x' ∨ c = 'X') then (16, 2, rest)
    else if base = 0 then (8, 0, s)
    else (base, 0, s)
  | '0' :: _ =>
    if base = 0 then (8, 0, s) else (base, 0, s)
  | _ =>
    if base = 0 then (10, 0, s) else (base, 0, s)

/-- The numeric value of a digit character: `0`–`9`, then `a`–`z`/`A`–`Z`
mapped to 10–35 (§4.3 step 4). -/
def digitVal (c : Char) : Option Nat :=
  if '0' ≤ c ∧ c ≤ '9' then some (c.toNat - '0'.toNat)
  else if 'a' ≤ c ∧ c ≤ 'z' then some (c.toNat - 'a'.toNat + 10)
  else if 'A' ≤ c ∧ c ≤ 'Z' then some (c.toNat - 'A'.toNat + 10)
  else none

/-- Modelled from the spec: §4.3 steps 4–5.  Consume the maximal run of digits
valid in the active base, accumulating `acc*base + digit` as a magnitude; once
the magnitude would exceed `limit`, hold it at `limit` and raise the overflow
flag, while still consuming the remaining digits.  Returns the magnitude, the
overflow flag, and the number of digits consumed. -/
def parseDigits (base limit : Nat) : List Char → Nat → Bool → Nat × Bool × Nat
  | [], acc, ovf => (acc, ovf, 0)
  | c :: rest, acc, ovf =>
    match digitVal c with
    | none => (acc, ovf, 0)
    | some d =>
      if d < base then
        if ovf ∨ limit < acc * base + d then
          let p := parseDigits base limit rest limit true
          (p.1, p.2.1, p.2.2 + 1)
        else
          let p := parseDigits base limit rest (acc * base + d) false
          (p.1, p.2.1, p.2.2 + 1)
      else (acc, ovf, 0)

/-- The ideal unbounded accumulation over the same maximal digit run (no
clamping): states what "the accumulation would exceed the representable
range" means.  Returns the magnitude and the number of digits consumed. -/
def parseDigitsIdeal (base : Nat) : List Char → Nat → Nat × Nat
  | [], acc => (acc, 0)
  | c :: rest, acc =>
    match digitVal c with
    | none => (acc, 0)
    | some d =>
      if d < base then
        let p := parseDigitsIdeal base rest (acc * base + d)
        (p.1, p.2 + 1)
      else (acc, 0)

/-- `LONG_MAX` for the 64-bit result type `long`. -/
def LONG_MAX : Int := 2 ^ 63 - 1

/-- `LONG_MIN` for the 64-bit result type `long`. -/
def LONG_MIN : Int := -(2 ^ 63)

/-- §3 Parsed Integer Result: value, characters consumed (the end pointer as
an offset from the start of the input), and the overflow flag. -/
structure StrtolResult where
  value : Int
  consumed : Nat
  overflow : Bool
  deriving Repr, DecidableEq

/-- Modelled from the spec: `strtol`'s body is not under `src` (`stdlib.h`
only declares it).  §4.3: skip whitespace, take an optional sign, detect the
base, consume digits with overflow clamping; if no digits were consumed at
all, the end pointer equals the original start and the value is 0. -/
def strtol (s : List Char) (base : Nat) : StrtolResult :=
  let w := skipWs s
  let g := parseSign w.2
  let b := baseDetect base g.2.2
  let limit : Nat := if g.1 then 2 ^ 63 else 2 ^ 63 - 1
  let p := parseDigits b.1 limit b.2.2 0 false
  if p.2.2 = 0 then ⟨0, 0, false⟩
  else
    ⟨if p.2.1 then (if g.1 then LONG_MIN else LONG_MAX)
      else (if g.1 then -(p.1 : Int) else (p.1 : Int)),
      w.1 + g.2.1 + b.2.1 + p.2.2, p.2.1⟩

/-- The ideal (mathematically unbounded) result of the same parse: the same
pipeline with no clamping.  Returns the exact value and the consumed count. -/
def strtolIdeal (s : List Char) (base : Nat) : Int × Nat :=
  let w := skipWs s
  let g := parseSign w.2
  let b := baseDetect base g.2.2
  let p := parseDigitsIdeal b.1 b.2.2 0
  if p.2 = 0 then (0, 0)
  else ((if g.1 then -(p.1 : Int) else (p.1 : Int)), w.1 + g.2.1 + b.2.1 + p.2)

/-- The length of the maximal run of digits valid in `base`. -/
def digitRun (base : Nat) : List Char → Nat
  | [] => 0
  | c :: rest =>
    match digitVal c with
    | none => 0
    | some d => if d < base then digitRun base rest + 1 else 0

theorem parseDigitsIdeal_run (base : Nat) :
    ∀ (s : List Char) (acc : Nat),
      (parseDigitsIdeal base s acc).2 = digitRun base s := by
  intro s
  induction s with
  | nil => intro acc; rfl
  | cons c rest ih =>
    intro acc
    cases hd : digitVal c with
    | none => simp [parseDigitsIdeal, digitRun, hd]
    | some d =>
      by_cases hdb : d < base
      · simp [parseDigitsIdeal, digitRun, hd, hdb, ih]
      · simp [parseDigitsIdeal, digitRun, hd, hdb]

theorem parseDigits_run (base limit : Nat) :
    ∀ (s : List Char) (acc : Nat) (ovf : Bool),
      (parseDigits base limit s acc ovf).2.2 = digitRun base s := by
  intro s
  induction s with
  | nil => intro acc ovf; rfl
  | cons c rest ih =>
    intro acc ovf
    cases hd : digitVal c with
    | none => simp [parseDigits, digitRun, hd]
    | some d =>
      by_cases hdb : d < base
      · by_cases hovf : ovf = true ∨ limit < acc * base + d
        · simp [parseDigits, digitRun, hd, hdb, if_pos hovf, ih]
        · simp [parseDigits, digitRun, hd, hdb, if_neg hovf, ih]
      · simp [parseDigits, digitRun, hd, hdb]

theorem parseDigits_clamped (base limit : Nat) :
    ∀ s : List Char,
      parseDigits base limit s limit true = (limit, true, digitRun base s) := by
  intro s
  induction s with
  | nil => rfl
  | cons c rest ih =>
    cases hd : digitVal c with
    | none => simp [parseDigits, digitRun, hd]
    | some d =>
      by_cases hdb : d < base
      · simp [parseDigits, digitRun, hd, hdb, ih]
      · simp [parseDigits, digitRun, hd, hdb]

theorem parseDigits_overflow (base limit : Nat) :
    ∀ (s : List Char) (acc : Nat), acc ≤ limit →
      limit < (parseDigitsIdeal base s acc).1 →
      parseDigits base limit s acc false = (limit, true, digitRun base s) := by
  intro s
  induction s with
  | nil =>
    intro acc hacc hover
    simp [parseDigitsIdeal] at hover
    omega
  | cons c rest ih =>
    intro acc hacc hover
    cases hd : digitVal c with
    | none =>
      simp [parseDigitsIdeal, hd] at hover
      omega
    | some d =>
      by_cases hdb : d < base
      · simp only [parseDigitsIdeal, hd, if_pos hdb] at hover
        by_cases hlim : limit < acc * base + d
        · simp [parseDigits, digitRun, hd, hdb, Or.inr hlim, parseDigits_clamped]
        · have hcond : ¬((false = true) ∨ limit < acc * base + d) := by
            simp [hlim]
          simp only [parseDigits, digitRun, hd, if_pos hdb, if_neg hcond]
          rw [ih (acc * base + d) (by omega) hover]
      · simp [parseDigitsIdeal, hd, hdb] at hover
        omega

/-- Core of the overflow analysis, stated over the parser stages' outputs:
whitespace/sign/base-detection consumed counts `wn`, `sn`, `bn`, sign flag
`neg`, active base `B`, and remaining characters `digits`. -/
theorem strtol_overflow_core (wn sn bn B : Nat) (neg : Bool) (digits : List Char)
    (hover :
      LONG_MAX < (if (parseDigitsIdeal B digits 0).2 = 0 then ((0 : Int), (0 : Nat))
          else ((if neg then -((parseDigitsIdeal B digits 0).1 : Int)
              else ((parseDigitsIdeal B digits 0).1 : Int)),
            wn + sn + bn + (parseDigitsIdeal B digits 0).2)).1 ∨
        (if (parseDigitsIdeal B digits 0).2 = 0 then ((0 : Int), (0 : Nat))
          else ((if neg then -((parseDigitsIdeal B digits 0).1 : Int)
              else ((parseDigitsIdeal B digits 0).1 : Int)),
            wn + sn + bn + (parseDigitsIdeal B digits 0).2)).1 < LONG_MIN) :
    (if (parseDigits B (if neg then 2 ^ 63 else 2 ^ 63 - 1) digits 0 false).2.2 = 0
        then (⟨0, 0, false⟩ : StrtolResult)
        else ⟨if (parseDigits B (if neg then 2 ^ 63 else 2 ^ 63 - 1) digits 0 false).2.1
            then (if neg then LONG_MIN else LONG_MAX)
            else (if neg
              then -((parseDigits B (if neg then 2 ^ 63 else 2 ^ 63 - 1) digits 0 false).1 : Int)
              else ((parseDigits B (if neg then 2 ^ 63 else 2 ^ 63 - 1) digits 0 false).1 : Int)),
          wn + sn + bn + (parseDigits B (if neg then 2 ^ 63 else 2 ^ 63 - 1) digits 0 false).2.2,
          (parseDigits B (if neg then 2 ^ 63 else 2 ^ 63 - 1) digits 0 false).2.1⟩).overflow
        = true ∧
    (if (parseDigits B (if neg then 2 ^ 63 else 2 ^ 63 - 1) digits 0 false).2.2 = 0
        then (⟨0, 0, false⟩ : StrtolResult)
        else ⟨if (parseDigits B (if neg then 2 ^ 63 else 2 ^ 63 - 1) digits 0 false).2.1
            then (if neg then LONG_MIN else LONG_MAX)
            else (if neg
              then -((parseDigits B (if neg then 2 ^ 63 else 2 ^ 63 - 1) digits 0 false).1 : Int)
              else ((parseDigits B (if neg then 2 ^ 63 else 2 ^ 63 - 1) digits 0 false).1 : Int)),
          wn + sn + bn + (parseDigits B (if neg then 2 ^ 63 else 2 ^ 63 - 1) digits 0 false).2.2,
          (parseDigits B (if neg then 2 ^ 63 else 2 ^ 63 - 1) digits 0 false).2.1⟩).value
      = (if (if (parseDigitsIdeal B digits 0).2 = 0 then ((0 : Int), (0 : Nat))
          else ((if neg then -((parseDigitsIdeal B digits 0).1 : Int)
              else ((parseDigitsIdeal B digits 0).1 : Int)),
            wn + sn + bn + (parseDigitsIdeal B digits 0).2)).1 < 0
          then LONG_MIN else LONG_MAX) ∧
    (if (parseDigits B (if neg then 2 ^ 63 else 2 ^ 63 - 1) digits 0 false).2.2 = 0
        then (⟨0, 0, false⟩ : StrtolResult)
        else ⟨if (parseDigits B (if neg then 2 ^ 63 else 2 ^ 63 - 1) digits 0 false).2.1
            then (if neg then LONG_MIN else LONG_MAX)
            else (if neg
              then -((parseDigits B (if neg then 2 ^ 63 else 2 ^ 63 - 1) digits 0 false).1 : Int)
              else ((parseDigits B (if neg then 2 ^ 63 else 2 ^ 63 - 1) digits 0 false).1 : Int)),
          wn + sn + bn + (parseDigits B (if neg then 2 ^ 63 else 2 ^ 63 - 1) digits 0 false).2.2,
          (parseDigits B (if neg then 2 ^ 63 else 2 ^ 63 - 1) digits 0 false).2.1⟩).consumed
      = (if (parseDigitsIdeal B digits 0).2 = 0 then ((0 : Int), (0 : Nat))
          else ((if neg then -((parseDigitsIdeal B digits 0).1 : Int)
              else ((parseDigitsIdeal B digits 0).1 : Int)),
            wn + sn + bn + (parseDigitsIdeal B digits 0).2)).2 := by
  rw [parseDigitsIdeal_run] at hover ⊢
  rw [parseDigits_run]
  by_cases hk : digitRun B digits = 0
  · rw [if_pos hk] at hover
    simp only [LONG_MAX, LONG_MIN] at hover
    omega
  · rw [if_neg hk] at hover ⊢
    rw [if_neg hk]
    cases neg with
    | false =>
      simp only [Bool.false_eq_true, if_false] at hover ⊢
      have hmag : 2 ^ 63 - 1 < (parseDigitsIdeal B digits 0).1 := by
        simp only [LONG_MAX, LONG_MIN] at hover
        omega
      rw [parseDigits_overflow B (2 ^ 63 - 1) digits 0 (by omega) hmag]
      refine ⟨by simp, ?_, by simp⟩
      rw [if_neg (by omega : ¬((parseDigitsIdeal B digits 0).1 : Int) < 0)]
      simp
    | true =>
      simp only [if_true] at hover ⊢
      have hmag : 2 ^ 63 < (parseDigitsIdeal B digits 0).1 := by
        simp only [LONG_MAX, LONG_MIN] at hover
        omega
      rw [parseDigits_overflow B (2 ^ 63) digits 0 (by omega) hmag]
      refine ⟨by simp, ?_, by simp⟩
      rw [if_pos (by omega : -((parseDigitsIdeal B digits 0).1 : Int) < 0)]
      simp

/-- C1: for every input, end-pointer request, and base, whenever `strtol`'s
digit accumulation would exceed the representable range of `long` (i.e. the
ideal unclamped value of the same parse lies outside
`[LONG_MIN, LONG_MAX]`), the returned value is clamped to `LONG_MAX`
(or `LONG_MIN` when the parsed value is negative), the overflow indicator is
set, and digit consumption continues: the consumed count (end pointer) equals
that of the ideal parse, past all consumed digits. -/
theorem strtol_overflow_clamps (s : List Char) (base : Nat)
    (hover : LONG_MAX < (strtolIdeal s base).1 ∨
      (strtolIdeal s base).1 < LONG_MIN) :
    (strtol s base).overflow = true ∧
    (strtol s base).value =
      (if (strtolIdeal s base).1 < 0 then LONG_MIN else LONG_MAX) ∧
    (strtol s base).consumed = (strtolIdeal s base).2 :=
  strtol_overflow_core (skipWs s).1 (parseSign (skipWs s).2).2.1
    (baseDetect base (parseSign (skipWs s).2).2.2).2.1
    (baseDetect base (parseSign (skipWs s).2).2.2).1
    (parseSign (skipWs s).2).1
    (baseDetect base (parseSign (skipWs s).2).2.2).2.2 hover

/-- C1 witness: the spec's overflow scenario, a decimal literal far exceeding
the representable range: nineteen nines exceed `LONG_MAX`, the result is
clamped to `LONG_MAX` with the overflow indicator set and all nineteen digits
consumed. -/
theorem strtol_overflow_clamps_witness :
    (LONG_MAX < (strtolIdeal "9999999999999999999".toList 10).1 ∨
      (strtolIdeal "9999999999999999999".toList 10).1 < LONG_MIN) ∧
    (strtol "9999999999999999999".toList 10).overflow = true ∧
    (strtol "9999999999999999999".toList 10).value =
      (if (strtolIdeal "9999999999999999999".toList 10).1 < 0
        then LONG_MIN else LONG_MAX) ∧
    (strtol "9999999999999999999".toList 10).consumed =
      (strtolIdeal "9999999999999999999".toList 10).2 :=
  ⟨by decide, strtol_overflow_clamps "9999999999999999999".toList 10 (by decide)⟩

/-- C5: `strtol`'s base detection (§4.3 step 3), applied to the characters
remaining after whitespace skipping and the optional sign.  If the base
argument is 0 or 16 and the next two characters are `0x`/`0X`, they are
consumed and the base is fixed to 16; otherwise base 0 with a leading `0`
fixes base 8 (consuming nothing); otherwise base 0 fixes base 10; an explicit
base 2–36 is used as given — in particular a leading zero is not mistaken for
octal when the base is explicitly 10. -/
theorem strtol_base_detection (base : Nat) (s rest : List Char) (c : Char) :
    ((base = 0 ∨ base = 16) → (c = 'x' ∨ c = 'X') →
      baseDetect base ('0' :: c :: rest) = (16, 2, rest)) ∧
    (base = 0 → ¬(c = 'x' ∨ c = 'X') →
      baseDetect base ('0' :: c :: rest) = (8, 0, '0' :: c :: rest)) ∧
    (base = 0 → baseDetect base ['0'] = (8, 0, ['0'])) ∧
    (base = 0 → (∀ rest', s ≠ '0' :: rest') →
      baseDetect base s = (10, 0, s)) ∧
    (2 ≤ base → base ≤ 36 → base ≠ 16 → baseDetect base s = (base, 0, s)) ∧
    (¬(c = 'x' ∨ c = 'X') →
      baseDetect 16 ('0' :: c :: rest) = (16, 0, '0' :: c :: rest)) ∧
    ((∀ c' rest', s ≠ '0' :: c' :: rest') →
      baseDetect 16 s = (16, 0, s)) ∧
    baseDetect 10 ('0' :: s) = (10, 0, '0' :: s) := by
  refine ⟨?_, ?_, ?_, ?_, ?_, ?_, ?_, ?_⟩
  · intro hb hx
    simp [baseDetect, hx, hb]
  · intro hb hx
    subst hb
    simp [baseDetect, hx]
  · intro hb
    subst hb
    simp [baseDetect]
  · intro hb hs
    subst hb
    match s with
    | [] => simp [baseDetect]
    | c' :: s' =>
      have hc' : c' ≠ '0' := fun h => hs s' (by rw [h])
      match s' with
      | [] => simp [baseDetect, hc']
      | c'' :: s'' => simp [baseDetect, hc']
  · intro hb2 hb36 hb16
    match s with
    | [] => simp [baseDetect]; omega
    | ['0'] => simp [baseDetect]; omega
    | '0' :: c'' :: s'' =>
      have : ¬((base = 0 ∨ base = 16) ∧ (c'' = 'x' ∨ c'' = 'X')) := by
        rintro ⟨hb, _⟩
        rcases hb with hb | hb <;> omega
      simp only [baseDetect, if_neg this]
      rw [if_neg (by omega)]
    | c' :: s' =>
      simp only [baseDetect]
      split
      · rename_i heq
        rw [if_neg (by rintro ⟨hb, _⟩; rcases hb with hb | hb <;> omega)]
        rw [if_neg (by omega)]
      · rename_i heq
        rw [if_neg (by omega)]
      · rw [if_neg (by omega)]
  · intro hx
    simp [baseDetect, hx]
  · intro hs
    match s with
    | [] => simp [baseDetect]
    | ['0'] => simp [baseDetect]
    | '0' :: c'' :: s'' => exact absurd rfl (hs c'' s'')
    | c' :: s' =>
      simp only [baseDetect]
      split
      · rename_i heq
        exact absurd heq (hs _ _)
      · simp
      · simp
  · match s with
    | [] => simp [baseDetect]
    | c'' :: s'' =>
      simp [baseDetect]

/-- C5 witness: concrete detections — `0x` prefix under base 0, leading zero
under base 0 (octal), plain digits under base 0 (decimal), explicit base 10
with leading zero (not octal), and explicit base 16 without prefix. -/
theorem strtol_base_detection_witness :
    baseDetect 0 ('0' :: 'x' :: ['1']) = (16, 2, ['1']) ∧
    baseDetect 0 ('0' :: '7' :: ['2']) = (8, 0, '0' :: '7' :: ['2']) ∧
    baseDetect 0 ['0'] = (8, 0, ['0']) ∧
    baseDetect 0 ['7'] = (10, 0, ['7']) ∧
    baseDetect 7 ['5'] = (7, 0, ['5']) ∧
    baseDetect 16 ('0' :: '1' :: ['2']) = (16, 0, '0' :: '1' :: ['2']) ∧
    baseDetect 16 ['a'] = (16, 0, ['a']) ∧
    baseDetect 10 ('0' :: ['9']) = (10, 0, '0' :: ['9']) := by
  refine ⟨?_, ?_, ?_, ?_, ?_, ?_, ?_, ?_⟩
  · exact (strtol_base_detection 0 [] ['1'] 'x').1 (Or.inl rfl) (Or.inl rfl)
  · exact (strtol_base_detection 0 [] ['2'] '7').2.1 rfl (by decide)
  · exact (strtol_base_detection 0 [] [] '0').2.2.1 rfl
  · exact (strtol_base_detection 0 ['7'] [] '0').2.2.2.1 rfl
      (fun rest' h => by injection h with h1 _; exact absurd h1 (by decide))
  · exact (strtol_base_detection 7 ['5'] [] '0').2.2.2.2.1
      (by decide) (by decide) (by decide)
  · exact (strtol_base_detection 16 [] ['2'] '1').2.2.2.2.2.1 (by decide)
  · exact (strtol_base_detection 16 ['a'] [] '0').2.2.2.2.2.2.1
      (fun c' rest' h => by injection h with h1 _; exact absurd h1 (by decide))
  · exact (strtol_base_detection 10 ['9'] [] '0').2.2.2.2.2.2.2

/-! ## Abort path (stdlib.h `abort`)

`abort`'s body is not under `src` (`stdlib.h` only declares it); §4.5
realises it as a trap/halt instruction or an infinite idle loop.  A calling
context is modelled by a two-state machine: it is either still inside
`abort`, or it has returned to its caller.
-/

/-- Execution state of a context that has invoked `abort`. -/
inductive ExecState where
  | inAbort : ExecState
  | returned : ExecState
  deriving Repr, DecidableEq

/-- Modelled from the spec: one machine step of `abort`'s §4.5 infinite idle
loop — a context inside `abort` stays inside `abort`; a context that had
already returned stays returned (the step only moves within `abort`). -/
def abortStep : ExecState → ExecState
  | ExecState.inAbort => ExecState.inAbort
  | ExecState.returned => ExecState.returned

/-- C7: `abort` halts forward execution and never returns control to its
caller — after any number of machine steps, a context that entered `abort`
is still inside `abort` and has not reached the returned-to-caller state. -/
theorem abort_never_returns (n : Nat) :
    abortStep^[n] ExecState.inAbort = ExecState.inAbort ∧
    abortStep^[n] ExecState.inAbort ≠ ExecState.returned := by
  induction n with
  | zero => exact ⟨rfl, by decide⟩
  | succ n ih =>
    rw [Function.iterate_succ_apply', ih.1]
    exact ⟨rfl, by decide⟩

/-! ## helloc application (hello.c)

`terminal_write` is the byte-output sink of §6; `main`'s observable behaviour
is the ordered sequence of strings it passes to `terminal_write`, together
with its return value.
-/

/-- The `for` loop of `main` (hello.c lines 7–11): for each argument in
order, write `"  "`, the argument, and `"\n"`. -/
def helloLoop : List String → List String
  | [] => []
  | a :: rest => "  " :: a :: "\n" :: helloLoop rest

/-- `main` from hello.c: writes the greeting and the `Arguments:` header,
then runs the loop over `argv`, and returns 0. -/
def helloMain (argv : List String) : List String × Int :=
  ("Hello from C!\n\n" :: "Arguments:\n" :: helloLoop argv, 0)

/-- C9: for every argument vector, `main` returns 0 and the sequence of
`terminal_write` calls is exactly the greeting, the `Arguments:` header, and
then for each argument in order the three writes `"  "`, the argument, and
`"\n"`. -/
theorem helloMain_writes (argv : List String) :
    helloMain argv =
      ("Hello from C!\n\n" :: "Arguments:\n" ::
        argv.flatMap (fun a => ["  ", a, "\n"]), 0) := by
  unfold helloMain
  refine congrArg (fun l => (_ :: _ :: l, (0 : Int))) ?_
  induction argv with
  | nil => rfl
  | cons a rest ih =>
    show "  " :: a :: "\n" :: helloLoop rest = _
    rw [List.flatMap_cons, ih]
    rfl

/-! ## peanut-gb accessor (peanut-gb.c)

`struct gb_s` is declared in peanut-gb.h, which is not under `src`; the code
under `src` shows only that it contains a sub-struct `direct` with a
`uint8_t` field `joypad`.  The structure is therefore modelled with the
fields the source evidences, abstracting all remaining fields of `direct`
and of `gb_s` as type parameters, so the theorem holds whatever those fields
are.  A C interior pointer is modelled as a getter/setter pair. -/

/-- An interior pointer into a structure: a getter/setter pair. -/
structure Ptr (σ α : Type) where
  get : σ → α
  set : σ → α → σ

/-- The `direct` sub-struct of `struct gb_s`: the `joypad` byte plus the
remaining fields, abstracted as `δ`. -/
structure GbDirect (δ : Type) where
  joypad : Nat
  rest : δ

/-- `struct gb_s`: the `direct` sub-struct plus the remaining fields,
abstracted as `ρ`. -/
structure GbS (δ ρ : Type) where
  direct : GbDirect δ
  rest : ρ

/-- From the source (peanut-gb.c): `gb_get_joypad_ptr(gb)` returns
`&gb->direct.joypad`, the interior pointer to the joypad field inside
`gb->direct`, and performs no write to `*gb`; the post-call structure is
returned alongside the pointer. -/
def gb_get_joypad_ptr {δ ρ : Type} (gb : GbS δ ρ) : GbS δ ρ × Ptr (GbS δ ρ) Nat :=
  (gb,
    { get := fun g => g.direct.joypad,
      set := fun g v => { g with direct := { g.direct with joypad := v } } })

/-- C10: `gb_get_joypad_ptr gb` leaves every field of `*gb` unchanged and
returns the pointer designating exactly the `joypad` field inside
`gb->direct`: reading through it yields `gb.direct.joypad`, and writing `v`
through it updates only that field, leaving the other fields of `direct` and
of `gb` untouched. -/
theorem gb_get_joypad_ptr_spec {δ ρ : Type} (gb : GbS δ ρ) (v : Nat) :
    (gb_get_joypad_ptr gb).1 = gb ∧
    ((gb_get_joypad_ptr gb).2).get gb = gb.direct.joypad ∧
    ((gb_get_joypad_ptr gb).2).set gb v =
      ⟨⟨v, gb.direct.rest⟩, gb.rest⟩ ∧
    (((gb_get_joypad_ptr gb).2).set gb v).rest = gb.rest ∧
    ((((gb_get_joypad_ptr gb).2).set gb v).direct).rest = gb.direct.rest ∧
    ((gb_get_joypad_ptr gb).2).get (((gb_get_joypad_ptr gb).2).set gb v) = v :=
  ⟨rfl, rfl, rfl, rfl, rfl, rfl⟩

end D3OS
